import Mathlib

/-
  Verification of the Vanity mirroring engine (src/vanity/mod.rs).

  Modelling conventions (shallow embedding):
  * Rust `String` / `&str` values are modelled as `List Char`.  All the
    strings this engine manipulates (commit hashes, marker lines, remote
    URLs) are ASCII, where byte-wise and codepoint-wise operations agree.
  * Rust `str::to_lowercase` is modelled as ASCII lowercasing (characters
    outside A-Z are unchanged).  Unicode special-casing only diverges on
    non-ASCII input, which never satisfies the hex-digit checks involved.
  * `i64` / `i32` are modelled as `Int`; the only overflow-sensitive
    operation in the source is `saturating_mul`, modelled explicitly.
  * Repository I/O (git2) is modelled by explicit state:
    a target repository is its tip-ancestry chain of commit objects plus
    its configured origin remote and identity config; a source repository
    is the list of SourceCommit records its ingestion produces.
  * Fallible operations return `Except`; Rust panics (the unchecked byte
    slice in build_commit_message) are modelled as `Option.none`.
-/

namespace Vanity

/-- Unicode white-space characters, as Rust char::is_whitespace
    (the Unicode White_Space property). -/
def isRustWhitespace (c : Char) : Bool :=
  decide (c = ' ' ∨ c = '\t' ∨ c = '\n' ∨ c = '\x0b' ∨ c = '\x0c' ∨ c = '\r' ∨
    c = '\u0085' ∨ c = '\u00A0' ∨ c = '\u1680' ∨
    ('\u2000' ≤ c ∧ c ≤ '\u200A') ∨ c = '\u2028' ∨ c = '\u2029' ∨
    c = '\u202F' ∨ c = '\u205F' ∨ c = '\u3000')

/-- Rust char::is_ascii_hexdigit. -/
def isAsciiHexDigit (c : Char) : Bool :=
  decide (('0' ≤ c ∧ c ≤ '9') ∨ ('a' ≤ c ∧ c ≤ 'f') ∨ ('A' ≤ c ∧ c ≤ 'F'))

/-- The sixteen lowercase hexadecimal digits (the alphabet of git hashes):
    0-9 followed by a-f. -/
def lowerHexChars : List Char :=
  (List.range 10).map (fun d => Char.ofNat (48 + d)) ++
    (List.range 6).map (fun d => Char.ofNat (97 + d))

/-- ASCII lowercasing of one character (see header note on to_lowercase). -/
def toLowerChar (c : Char) : Char :=
  if 'A' ≤ c ∧ c ≤ 'Z' then Char.ofNat (c.toNat + 32) else c

/-- Rust str::to_lowercase (ASCII fragment). -/
def toLowercaseL (s : List Char) : List Char := s.map toLowerChar

/-- Rust str::trim: strip leading and trailing whitespace. -/
def trimL (s : List Char) : List Char :=
  ((s.dropWhile isRustWhitespace).reverse.dropWhile isRustWhitespace).reverse

/-- Rust str::strip_prefix on character lists: some remainder iff the first
    argument is a prefix of the second. -/
def stripPrefixL : List Char → List Char → Option (List Char)
  | [], s => some s
  | _ :: _, [] => none
  | p :: ps, c :: cs => if c = p then stripPrefixL ps cs else none

/-- Drop one leading carriage return (helper for the line iterator). -/
def dropCrHead : List Char → List Char
  | '\r' :: t => t
  | l => l

/-- Worker for rustLines; the current line is accumulated in reverse. -/
def linesGo (cur : List Char) : List Char → List (List Char)
  | [] => if cur = [] then [] else [cur.reverse]
  | c :: rest =>
      if c = '\n' then (dropCrHead cur).reverse :: linesGo [] rest
      else linesGo (c :: cur) rest

/-- Rust str::lines: split at newline characters, treating a preceding
    carriage return as part of the terminator; the final line ending is
    optional and an empty final segment produces no line. -/
def rustLines (s : List Char) : List (List Char) := linesGo [] s

/-- Rust slice join with a single newline separator (Vec::join used by
    build_commit_message). -/
def joinNl : List (List Char) → List Char
  | [] => []
  | [l] => l
  | l :: ls => l ++ '\n' :: joinNl ls

/-- Total UTF-8 byte length of a string. -/
def utf8Length (s : List Char) : Nat := (s.map Char.utf8Size).sum

/-- Rust byte slicing s[..n] : keeps the first n bytes, failing (= panic)
    when the string is shorter than n bytes or n is not a character
    boundary. -/
def takeBytes (n : Nat) : List Char → Option (List Char)
  | [] => if n = 0 then some [] else none
  | c :: cs =>
      if n = 0 then some []
      else if c.utf8Size ≤ n then (takeBytes (n - c.utf8Size) cs).map (c :: ·)
      else none

/-- MARKER_PREFIX in the source: the literal marker line head
    recognized by the Marker Scanner. -/
def markerText : List Char := "Vanity-Source-Commit: ".data

/-- Per-line marker extraction of existing_mirrored_shas
    (src/vanity/mod.rs lines 198-205): strip the marker head, trim,
    lowercase, accept iff exactly 40 ASCII hex characters. -/
def markerOfLine (line : List Char) : Option (List Char) :=
  match stripPrefixL markerText line with
  | none => none
  | some sha =>
      let normalized := toLowercaseL (trimL sha)
      if normalized.length = 40 ∧ normalized.all isAsciiHexDigit then some normalized
      else none

/-- All markers recognized in one commit message, in line order. -/
def extractMarkers (msg : List Char) : List (List Char) :=
  (rustLines msg).filterMap markerOfLine

/-- SyncSummary (src/vanity/mod.rs lines 29-34). -/
structure SyncSummary where
  total_source_commits : Nat
  existing_markers : Nat
  created : Nat
deriving DecidableEq

/-- SourceCommit record (src/vanity/mod.rs lines 36-44). -/
structure SourceCommit where
  sha : List Char
  source_repo_hint : List Char
  source_web_base_url : Option (List Char)
  author_date_seconds : Int
  author_offset_minutes : Int
  subject : List Char
deriving DecidableEq

/-- Rust str::trim_end_matches for a single character. -/
def trimEndMatchesChar (ch : Char) (s : List Char) : List Char :=
  (s.reverse.dropWhile (fun c => decide (c = ch))).reverse

/-- source_commit_url (src/vanity/mod.rs lines 298-303). -/
def source_commit_url (commit : SourceCommit) : Option (List Char) :=
  commit.source_web_base_url.map
    (fun base => trimEndMatchesChar '/' base ++ "/commit/".data ++ commit.sha)

/-- Decimal digit character (d < 10). -/
def digitChar (d : Nat) : Char := Char.ofNat (48 + d)

/-- Digit-extraction worker; the fuel argument only bounds the recursion
    depth (any fuel above the digit count gives the same result) and keeps
    the definition structurally recursive, hence kernel-reducible. -/
def natDigitsAux (fuel : Nat) (n : Nat) : List Char :=
  match fuel with
  | 0 => []
  | fuel + 1 =>
      if n < 10 then [digitChar n]
      else natDigitsAux fuel (n / 10) ++ [digitChar (n % 10)]

/-- Decimal digits of a natural number, most significant first. -/
def natDigits (n : Nat) : List Char := natDigitsAux (n + 1) n

/-- Rust integer to_string for i64 values. -/
def intToString (n : Int) : List Char :=
  (if n < 0 then ['-'] else []) ++ natDigits n.natAbs

/-- Zero-padding to width 2 (chrono numeric field rendering, values < 100). -/
def pad2 (n : Nat) : List Char :=
  if n < 10 then '0' :: natDigits n else natDigits n

/-- Zero-padding to width 4. -/
def pad4 (n : Nat) : List Char :=
  List.replicate (4 - (natDigits n).length) '0' ++ natDigits n

/-- Year rendering of chrono: four zero-padded digits for 0..9999, an
    explicit sign and at least four digits otherwise. -/
def renderYear (y : Int) : List Char :=
  if 0 ≤ y ∧ y < 10000 then pad4 y.toNat
  else (if y < 0 then ['-'] else ['+']) ++ pad4 y.natAbs

/-- Civil date (year, month, day) of a day count relative to 1970-01-01
    (the classical days-to-civil conversion, as computed by chrono). -/
def civilFromDays (z0 : Int) : Int × Int × Int :=
  let z := z0 + 719468
  let era := Int.fdiv z 146097
  let doe := z - era * 146097
  let yoe := Int.fdiv (doe - Int.fdiv doe 1460 + Int.fdiv doe 36524 - Int.fdiv doe 146096) 365
  let y := yoe + era * 400
  let doy := doe - (365 * yoe + Int.fdiv yoe 4 - Int.fdiv yoe 100)
  let mp := Int.fdiv (5 * doy + 2) 153
  let d := doy - Int.fdiv (153 * mp + 2) 5 + 1
  let m := mp + (if mp < 10 then 3 else -9)
  (y + (if m ≤ 2 then 1 else 0), m, d)

/-- Day count relative to 1970-01-01 of a civil date (inverse of
    civilFromDays). -/
def daysFromCivil (y m d : Int) : Int :=
  let yy := if m ≤ 2 then y - 1 else y
  let era := Int.fdiv yy 400
  let yoe := yy - era * 400
  let doy := Int.fdiv (153 * (m + (if 2 < m then -3 else 9)) + 2) 5 + d - 1
  let doe := yoe * 365 + Int.fdiv yoe 4 - Int.fdiv yoe 100 + doy
  era * 146097 + doe - 719468

/-- Modelled from chrono: earliest supported day (NaiveDate::MIN is
    -262143-01-01; chrono keeps one year of internal headroom below it). -/
def chronoMinDays : Int := daysFromCivil (-262143) 1 1

/-- Modelled from chrono: latest supported day (NaiveDate::MAX is
    262142-12-31). -/
def chronoMaxDays : Int := daysFromCivil 262142 12 31

/-- Modelled from chrono: Utc.timestamp_opt(secs, 0).single() succeeds
    exactly when the day of the timestamp is a supported date. -/
def tsInRange (s : Int) : Bool :=
  decide (chronoMinDays ≤ Int.fdiv s 86400 ∧ Int.fdiv s 86400 ≤ chronoMaxDays)

/-- Modelled from chrono: Utc.timestamp_opt(seconds, 0).single(). -/
def utcTimestampOptSingle (s : Int) : Option Int :=
  if tsInRange s then some s else none

/-- Modelled from chrono: FixedOffset::east_opt, defined for offsets of
    absolute value strictly below one day in seconds. -/
def fixedOffsetEastOpt (secs : Int) : Option Int :=
  if -86400 < secs ∧ secs < 86400 then some secs else none

/-- i32 saturating multiplication by 60 (offset_minutes.saturating_mul(60)). -/
def i32SatMul60 (m : Int) : Int :=
  if m * 60 < -2147483648 then -2147483648
  else if 2147483647 < m * 60 then 2147483647
  else m * 60

/-- The +HH:MM suffix of an RFC-3339 timestamp for a fixed offset in
    seconds. -/
def renderOffsetPart (off : Int) : List Char :=
  (if off < 0 then ['-'] else ['+']) ++
    pad2 (off.natAbs / 3600) ++ ':' :: pad2 (off.natAbs % 3600 / 60)

/-- RFC-3339 rendering (chrono to_rfc3339 with zero nanoseconds) of a UTC
    timestamp viewed at a fixed offset in seconds. -/
def rfc3339Render (utcSecs offsetSecs : Int) : List Char :=
  let localSecs := utcSecs + offsetSecs
  let days := Int.fdiv localSecs 86400
  let sod := (localSecs - 86400 * days).toNat
  let ymd := civilFromDays days
  renderYear ymd.1 ++ '-' :: pad2 ymd.2.1.toNat ++ '-' :: pad2 ymd.2.2.toNat ++
    'T' :: pad2 (sod / 3600) ++ ':' :: pad2 (sod % 3600 / 60) ++ ':' :: pad2 (sod % 60) ++
    renderOffsetPart offsetSecs

/-- format_source_date (src/vanity/mod.rs lines 305-316). -/
def format_source_date (seconds : Int) (offset_minutes : Int) : List Char :=
  match (fixedOffsetEastOpt (i32SatMul60 offset_minutes)).orElse
      (fun _ => fixedOffsetEastOpt 0) with
  | none => intToString seconds
  | some offset =>
      match utcTimestampOptSingle seconds with
      | some dtUtc => rfc3339Render dtUtc offset
      | none => intToString seconds

/-- The line list assembled by build_commit_message (src/vanity/mod.rs
    lines 319-333), given the already-sliced 12-character hash head. -/
def messageLines (commit : SourceCommit) (sha12 : List Char) : List (List Char) :=
  ["Vanity mirror: ".data ++ sha12,
   [],
   "Source-Repo: ".data ++ commit.source_repo_hint,
   markerText ++ commit.sha] ++
  (match source_commit_url commit with
   | some url => ["Source-Commit-URL: ".data ++ url]
   | none => []) ++
  ["Source-Date: ".data ++
     format_source_date commit.author_date_seconds commit.author_offset_minutes,
   "Source-Subject: ".data ++ commit.subject]

/-- build_commit_message (src/vanity/mod.rs lines 318-335).  The byte
    slice commit.sha[..12] has no length check in the source; its panic is
    modelled as none. -/
def build_commit_message (commit : SourceCommit) : Option (List Char) :=
  match takeBytes 12 commit.sha with
  | none => none
  | some sha12 => some (joinNl (messageLines commit sha12))

/-- Three-way comparison on naturals. -/
def cmpN (a b : Nat) : Ordering :=
  if a < b then Ordering.lt else if b < a then Ordering.gt else Ordering.eq

/-- Three-way comparison on characters by codepoint (for ASCII data this is
    exactly the byte comparison Rust String::cmp performs). -/
def cmpChar (a b : Char) : Ordering := cmpN a.toNat b.toNat

/-- Lexicographic three-way comparison of strings (Rust String::cmp). -/
def cmpStr : List Char → List Char → Ordering
  | [], [] => Ordering.eq
  | [], _ :: _ => Ordering.lt
  | _ :: _, [] => Ordering.gt
  | a :: as, b :: bs =>
      match cmpChar a b with
      | Ordering.eq => cmpStr as bs
      | o => o

/-- Three-way comparison on integers. -/
def cmpI (a b : Int) : Ordering :=
  if a < b then Ordering.lt else if b < a then Ordering.gt else Ordering.eq

/-- The comparator of gather_source_commits (src/vanity/mod.rs lines
    227-231): author timestamp first, commit hash as tiebreak. -/
def commitCmp (a b : SourceCommit) : Ordering :=
  (cmpI a.author_date_seconds b.author_date_seconds).then (cmpStr a.sha b.sha)

/-- Non-strict order induced by the commit comparator. -/
def commitLe (a b : SourceCommit) : Prop := commitCmp a b ≠ Ordering.gt

instance : DecidableRel commitLe := fun a b => by
  unfold commitLe; infer_instance

/-- Strict (timestamp, hash) ordering used to state the global-ordering
    properties. -/
def keyLt (a b : SourceCommit) : Prop :=
  a.author_date_seconds < b.author_date_seconds ∨
    (a.author_date_seconds = b.author_date_seconds ∧ cmpStr a.sha b.sha = Ordering.lt)

/-- First-seen-wins deduplication by hash over the concatenated ingestion
    results (the seen_shas HashSet loop of gather_source_commits,
    src/vanity/mod.rs lines 216-225). -/
def dedupFirstAux (seen : List (List Char)) : List SourceCommit → List SourceCommit
  | [] => []
  | c :: rest =>
      if c.sha ∈ seen then dedupFirstAux seen rest
      else c :: dedupFirstAux (c.sha :: seen) rest

/-- gather_source_commits (src/vanity/mod.rs lines 210-234), acting on the
    per-repository ingestion results (read_repos holds, in configured
    source-repo list order, the SourceCommit list each repository
    produces; rayon par_iter().collect() preserves that order).  Rust
    sort_by is a stable sort; after deduplication all hashes are distinct,
    so the comparator is a strict total order on the list and every
    sorting algorithm produces the same result, here insertion sort. -/
def gather_source_commits (read_repos : List (List SourceCommit)) : List SourceCommit :=
  List.insertionSort commitLe (dedupFirstAux [] read_repos.flatten)

/-- A commit object of the target repository: only the fields this engine
    reads or writes are modelled; id abstracts the git object id. -/
structure CommitObj where
  id : Nat
  tree : Nat
  parents : List Nat
  message : List Char
  authorName : List Char
  authorEmail : List Char
  authorSeconds : Int
  authorOffsetMinutes : Int
  committerName : List Char
  committerEmail : List Char
  committerSeconds : Int
  committerOffsetMinutes : Int
deriving DecidableEq

/-- The target (this-repo) repository state: the chain of commits
    reachable from the current branch tip, oldest first ([] = repository
    without any commit); the configured origin remote URL; the local
    user.name / user.email configuration. -/
structure ThisRepo where
  chain : List CommitObj
  origin : Option (List Char)
  userName : Option (List Char)
  userEmail : Option (List Char)
deriving DecidableEq

/-- HashSet-style insertion: add a string unless already present. -/
def insertUnique (acc : List (List Char)) (s : List Char) : List (List Char) :=
  if s ∈ acc then acc else acc ++ [s]

/-- existing_mirrored_shas (src/vanity/mod.rs lines 181-207): when the
    repository has no branch tip the scan returns the empty set; otherwise
    every reachable commit message is scanned line by line for markers. -/
def existing_mirrored_shas (repo : ThisRepo) : List (List Char) :=
  match repo.chain.getLast? with
  | none => []
  | some _ =>
      (repo.chain.map (fun c => c.message)).foldl
        (fun acc msg => (extractMarkers msg).foldl insertUnique acc) []

/-- resolve_repo_identity (src/vanity/mod.rs lines 362-377): local
    user.name / user.email with fixed fallbacks when absent or blank. -/
def resolve_repo_identity (repo : ThisRepo) : List Char × List Char :=
  let name := match repo.userName with
    | some v => if trimL v = [] then "Vanity".data else v
    | none => "Vanity".data
  let email := match repo.userEmail with
    | some v => if trimL v = [] then "vanity@example.invalid".data else v
    | none => "vanity@example.invalid".data
  (name, email)

/-- create_empty_commit (src/vanity/mod.rs lines 337-360): requires an
    existing tip, reuses its tree, has the tip as only parent, stamps both
    author and committer with the source commit authorship time, and
    advances the branch tip to the new commit. -/
def create_empty_commit (repo : ThisRepo) (message : List Char) (source : SourceCommit) :
    Except (List Char) (CommitObj × ThisRepo) :=
  match repo.chain.getLast? with
  | none => Except.error "this-repo must have at least one commit".data
  | some head_commit =>
      let ident := resolve_repo_identity repo
      let newc : CommitObj :=
        { id := repo.chain.length
          tree := head_commit.tree
          parents := [head_commit.id]
          message := message
          authorName := ident.1
          authorEmail := ident.2
          authorSeconds := source.author_date_seconds
          authorOffsetMinutes := source.author_offset_minutes
          committerName := ident.1
          committerEmail := ident.2
          committerSeconds := source.author_date_seconds
          committerOffsetMinutes := source.author_offset_minutes }
      Except.ok (newc, { repo with chain := repo.chain ++ [newc] })

/-- Rust str::strip_suffix on character lists. -/
def stripSuffixL (suf s : List Char) : Option (List Char) :=
  (stripPrefixL suf.reverse s.reverse).map List.reverse

/-- normalize_remote_url (src/vanity/mod.rs lines 379-388). -/
def normalize_remote_url (url : List Char) : List Char :=
  let normalized := toLowercaseL (trimL url)
  let normalized := match stripPrefixL "git@github.com:".data normalized with
    | some path => "https://github.com/".data ++ path
    | none => normalized
  let normalized := match stripSuffixL ".git".data normalized with
    | some stripped => stripped
    | none => normalized
  trimEndMatchesChar '/' normalized

/-- EXPECTED_VANITY_REMOTE in the source. -/
def expectedVanityRemote : List Char := "https://github.com/TeamDman/Vanity".data

/-- assert_vanity_target_repo (src/vanity/mod.rs lines 390-406). -/
def assert_vanity_target_repo (repo : ThisRepo) (allow_non_vanity_target : Bool) :
    Except (List Char) Unit :=
  if allow_non_vanity_target then Except.ok ()
  else
    match repo.origin with
    | none => Except.error "Missing origin remote in this-repo".data
    | some origin =>
        if normalize_remote_url origin = normalize_remote_url expectedVanityRemote then
          Except.ok ()
        else Except.error "Mutation blocked: target repo origin does not match".data

/-- The pending set of sync (src/vanity/mod.rs lines 141-149): source
    commits without an existing marker, truncated to the optional limit. -/
def pendingOf (repo : ThisRepo) (read_repos : List (List SourceCommit)) (limit : Option Nat) :
    List SourceCommit :=
  let existing_markers := existing_mirrored_shas repo
  let pending := (gather_source_commits read_repos).filter
    (fun c => !(decide (c.sha ∈ existing_markers)))
  match limit with
  | none => pending
  | some k => pending.take k

/-- The per-commit loop of sync (src/vanity/mod.rs lines 152-158): the
    message is built unconditionally (its panic propagates as an error);
    the commit is only written when not in dry-run mode. -/
def runPending (repo : ThisRepo) (dry_run : Bool) :
    List SourceCommit → Except (List Char) ThisRepo
  | [] => Except.ok repo
  | commit :: rest =>
      match build_commit_message commit with
      | none => Except.error "panic: byte index 12 out of bounds".data
      | some message =>
          if dry_run then runPending repo dry_run rest
          else
            match create_empty_commit repo message commit with
            | Except.error e => Except.error e
            | Except.ok (_, repo2) => runPending repo2 dry_run rest

/-- sync (src/vanity/mod.rs lines 118-166).  The this-repo configuration
    and opening of repositories is collaborator I/O; the read_repos
    argument holds the ingestion result of each configured source
    repository in configured order. -/
def sync (repo : ThisRepo) (read_repos : List (List SourceCommit))
    (dry_run allow_non_vanity_target : Bool) (limit : Option Nat) :
    Except (List Char) (SyncSummary × ThisRepo) :=
  if read_repos.isEmpty then
    Except.error "read-repo list is empty. Run: read-repo add <path>".data
  else
    match (if dry_run then Except.ok () else
            assert_vanity_target_repo repo allow_non_vanity_target) with
    | Except.error e => Except.error e
    | Except.ok _ =>
        match runPending repo dry_run (pendingOf repo read_repos limit) with
        | Except.error e => Except.error e
        | Except.ok repo2 =>
            Except.ok
              ({ total_source_commits := (gather_source_commits read_repos).length
                 existing_markers := (existing_mirrored_shas repo).length
                 created := (pendingOf repo read_repos limit).length }, repo2)

/-- The closed alphabet of rendered date strings. -/
def safeDateChars : List Char := "0123456789-+:T".data

/-- The offset actually used for rendering: the source offset when chrono
    accepts it, UTC (zero) otherwise. -/
def effectiveOffsetSeconds (offset_minutes : Int) : Int :=
  if -86400 < i32SatMul60 offset_minutes ∧ i32SatMul60 offset_minutes < 86400 then
    i32SatMul60 offset_minutes
  else 0

/-! Shared concrete example values for witnesses. -/

/-- A source commit with hash of 40 letters a, authored at t = 100. -/
def exCommitA : SourceCommit :=
  { sha := "aaaaaaaaaaaaaaaaaaaaaaaaaaaaaaaaaaaaaaaa".data
    source_repo_hint := "repoA".data
    source_web_base_url := none
    author_date_seconds := 100
    author_offset_minutes := 0
    subject := "sa".data }

/-- A source commit with hash of 40 letters b, authored at t = 50. -/
def exCommitB : SourceCommit :=
  { sha := "bbbbbbbbbbbbbbbbbbbbbbbbbbbbbbbbbbbbbbbb".data
    source_repo_hint := "repoB".data
    source_web_base_url := none
    author_date_seconds := 50
    author_offset_minutes := 0
    subject := "sb".data }

/-- A duplicate of exCommitA's hash as ingested from a later-listed
    repository, with a different provenance hint. -/
def exCommitA2 : SourceCommit :=
  { sha := "aaaaaaaaaaaaaaaaaaaaaaaaaaaaaaaaaaaaaaaa".data
    source_repo_hint := "repoC".data
    source_web_base_url := none
    author_date_seconds := 100
    author_offset_minutes := 0
    subject := "sa2".data }

/-- A plain tip commit for a target repository. -/
def exTip : CommitObj :=
  { id := 0
    tree := 7
    parents := []
    message := "initial".data
    authorName := "Initial".data
    authorEmail := "i@example.invalid".data
    authorSeconds := 0
    authorOffsetMinutes := 0
    committerName := "Initial".data
    committerEmail := "i@example.invalid".data
    committerSeconds := 0
    committerOffsetMinutes := 0 }

/-- A target repository with one commit and no origin remote. -/
def exRepoNoOrigin : ThisRepo :=
  { chain := [exTip], origin := none, userName := none, userEmail := none }

/-- A target repository without any commit. -/
def exRepoEmpty : ThisRepo :=
  { chain := [], origin := none, userName := none, userEmail := none }

instance {e a : Type} [DecidableEq e] [DecidableEq a] : DecidableEq (Except e a) := fun x y =>
  match x, y with
  | Except.error e1, Except.error e2 =>
      if h : e1 = e2 then isTrue (by rw [h])
      else isFalse (by intro hh; injection hh; exact h (by assumption))
  | Except.error _, Except.ok _ => isFalse (by intro hh; cases hh)
  | Except.ok _, Except.error _ => isFalse (by intro hh; cases hh)
  | Except.ok a1, Except.ok a2 =>
      if h : a1 = a2 then isTrue (by rw [h])
      else isFalse (by intro hh; injection hh; exact h (by assumption))

/-- The target chain length of a sync result (none when the run failed). -/
def syncChainLength (r : Except (List Char) (SyncSummary × ThisRepo)) : Option Nat :=
  match r with
  | Except.ok p => some p.2.chain.length
  | Except.error _ => none

/-! Character-set facts, by evaluation over the finite alphabets. -/

theorem lowerHex_utf8Size : ∀ c ∈ lowerHexChars, c.utf8Size = 1 := by decide

theorem lowerHex_toLower : ∀ c ∈ lowerHexChars, toLowerChar c = c := by decide

theorem lowerHex_not_ws : ∀ c ∈ lowerHexChars, isRustWhitespace c = false := by decide

theorem lowerHex_isHex : ∀ c ∈ lowerHexChars, isAsciiHexDigit c = true := by decide

theorem lowerHex_not_nl_cr : ∀ c ∈ lowerHexChars, c ≠ '\n' ∧ c ≠ '\r' := by decide

/-! Byte-slicing lemmas. -/

theorem takeBytes_of_ascii (n : Nat) (s : List Char)
    (h1 : ∀ c ∈ s, c.utf8Size = 1) (h2 : n ≤ s.length) :
    takeBytes n s = some (s.take n) := by
  induction s generalizing n with
  | nil =>
      simp at h2
      subst h2
      rfl
  | cons c cs ih =>
      by_cases hn : n = 0
      · subst hn
        simp [takeBytes]
      · have hc : c.utf8Size = 1 := h1 c (by simp)
        have hcs : ∀ x ∈ cs, x.utf8Size = 1 := fun x hx => h1 x (by simp [hx])
        have hlen : n - 1 ≤ cs.length := by simp at h2; omega
        simp only [takeBytes, hc, if_neg hn]
        rw [if_pos (by omega)]
        rw [ih (n - 1) hcs hlen]
        cases n with
        | zero => omega
        | succ m => simp [List.take]

theorem takeBytes_too_short (n : Nat) (s : List Char) (h : utf8Length s < n) :
    takeBytes n s = none := by
  induction s generalizing n with
  | nil =>
      have : n ≠ 0 := by simp [utf8Length] at h; omega
      simp [takeBytes, this]
  | cons c cs ih =>
      have hsz : 1 ≤ c.utf8Size := Char.utf8Size_pos c
      have hn : n ≠ 0 := by
        simp [utf8Length] at h
        omega
      by_cases hle : c.utf8Size ≤ n
      · have : utf8Length cs < n - c.utf8Size := by
          simp [utf8Length] at h ⊢
          omega
        simp [takeBytes, hn, hle, ih _ this]
      · simp [takeBytes, hn, hle]

/-! strip / trim / lowercase lemmas. -/

theorem stripPrefixL_self_append (p s : List Char) :
    stripPrefixL p (p ++ s) = some s := by
  induction p with
  | nil => rfl
  | cons c cs ih => simp [stripPrefixL, ih]

theorem dropWhile_eq_self_of_all {p : Char → Bool} {s : List Char}
    (h : ∀ c ∈ s, p c = false) : s.dropWhile p = s := by
  cases s with
  | nil => rfl
  | cons c cs => simp [List.dropWhile_cons, h c (by simp)]

theorem trimL_eq_self {s : List Char} (h : ∀ c ∈ s, isRustWhitespace c = false) :
    trimL s = s := by
  unfold trimL
  rw [dropWhile_eq_self_of_all h]
  rw [dropWhile_eq_self_of_all (fun c hc => h c (List.mem_reverse.mp hc))]
  exact List.reverse_reverse s

theorem toLowercaseL_eq_self {s : List Char} (h : ∀ c ∈ s, toLowerChar c = c) :
    toLowercaseL s = s := by
  unfold toLowercaseL
  rw [List.map_congr_left h]
  simp

/-! Line-splitting round trip. -/

theorem linesGo_append {l : List Char} (hnl : ∀ c ∈ l, c ≠ '\n') :
    ∀ (acc r : List Char), linesGo acc (l ++ r) = linesGo (l.reverse ++ acc) r := by
  induction l with
  | nil => intro acc r; rfl
  | cons c cs ih =>
      intro acc r
      have hc : c ≠ '\n' := (hnl c (by simp))
      have hcs : ∀ x ∈ cs, x ≠ '\n' := fun x hx => hnl x (by simp [hx])
      show linesGo acc (c :: (cs ++ r)) = _
      simp only [linesGo, if_neg hc]
      have step : linesGo (c :: acc) (cs ++ r) = linesGo (cs.reverse ++ (c :: acc)) r :=
        ih hcs (c :: acc) r
      rw [step]
      simp [List.reverse_cons, List.append_assoc]

theorem dropCrHead_eq_self {l : List Char} (h : ∀ c ∈ l, c ≠ '\r') :
    dropCrHead l = l := by
  cases l with
  | nil => rfl
  | cons c cs =>
      have hc : c ≠ '\r' := h c (by simp)
      unfold dropCrHead
      split
      · rename_i heq
        injection heq with h1 h2
        exact absurd h1 hc
      · rfl

theorem rustLines_single {l : List Char} (hne : l ≠ [])
    (hnl : ∀ c ∈ l, c ≠ '\n') : rustLines l = [l] := by
  unfold rustLines
  have := linesGo_append hnl [] []
  rw [List.append_nil] at this
  rw [this]
  simp only [List.append_nil, linesGo]
  rw [if_neg (by simpa using hne)]
  simp

theorem rustLines_joinNl (ls : List (List Char))
    (h : ∀ l ∈ ls, ∀ c ∈ l, c ≠ '\n' ∧ c ≠ '\r')
    (hlast : ls.getLast? ≠ some []) :
    rustLines (joinNl ls) = ls := by
  induction ls with
  | nil => rfl
  | cons l ls ih =>
      cases ls with
      | nil =>
          have hne : l ≠ [] := by
            intro hl
            exact hlast (by simp [hl, List.getLast?])
          exact rustLines_single hne (fun c hc => (h l (by simp) c hc).1)
      | cons l2 ls2 =>
          have hnl : ∀ c ∈ l, c ≠ '\n' := fun c hc => (h l (by simp) c hc).1
          have hncr : ∀ c ∈ l.reverse, c ≠ '\r' := fun c hc =>
            (h l (by simp) c (List.mem_reverse.mp hc)).2
          have hrest : ∀ m ∈ l2 :: ls2, ∀ c ∈ m, c ≠ '\n' ∧ c ≠ '\r' := by
            intro m hm c hc
            exact h m (by simp [hm]) c hc
          have hlast2 : (l2 :: ls2).getLast? ≠ some [] := by
            simpa [List.getLast?_cons_cons] using hlast
          show rustLines (l ++ '\n' :: joinNl (l2 :: ls2)) = l :: l2 :: ls2
          unfold rustLines
          rw [linesGo_append hnl [] ('\n' :: joinNl (l2 :: ls2))]
          simp only [linesGo, if_pos rfl, List.append_nil]
          rw [dropCrHead_eq_self hncr, List.reverse_reverse]
          exact congrArg (l :: ·) (ih hrest hlast2)

/-! Classification of the lines produced by the Message Builder. -/

theorem markerOfLine_marker {sha : List Char} (hlen : sha.length = 40)
    (hhex : ∀ c ∈ sha, c ∈ lowerHexChars) :
    markerOfLine (markerText ++ sha) = some sha := by
  have htrim : trimL sha = sha :=
    trimL_eq_self (fun c hc => lowerHex_not_ws c (hhex c hc))
  have hlow : toLowercaseL sha = sha :=
    toLowercaseL_eq_self (fun c hc => lowerHex_toLower c (hhex c hc))
  have hall : sha.all isAsciiHexDigit = true :=
    List.all_eq_true.mpr (fun c hc => lowerHex_isHex c (hhex c hc))
  simp only [markerOfLine, stripPrefixL_self_append, htrim, hlow]
  rw [if_pos ⟨hlen, hall⟩]

theorem markerOfLine_mirror_line (rest : List Char) :
    markerOfLine ('V' :: 'a' :: 'n' :: 'i' :: 't' :: 'y' :: ' ' :: 'm' :: 'i' :: 'r' ::
      'r' :: 'o' :: 'r' :: ':' :: ' ' :: rest) = none := rfl

theorem markerOfLine_line_s (rest : List Char) :
    markerOfLine ('S' :: rest) = none := rfl

theorem markerOfLine_empty : markerOfLine [] = none := rfl

theorem trimEndMatchesChar_subset (ch : Char) (s : List Char) :
    trimEndMatchesChar ch s ⊆ s := by
  intro c hc
  unfold trimEndMatchesChar at hc
  rw [List.mem_reverse] at hc
  exact List.mem_reverse.mp ((List.dropWhile_sublist _).subset hc)

/-! The characters the Source-Date field can contain. -/

theorem natDigitsAux_subset (fuel : Nat) :
    ∀ n, ∀ c ∈ natDigitsAux fuel n, c ∈ safeDateChars := by
  induction fuel with
  | zero => intro n c hc; cases hc
  | succ fuel ih =>
      intro n c hc
      unfold natDigitsAux at hc
      split at hc
      · rename_i h
        simp only [List.mem_singleton] at hc
        subst hc
        exact (by decide : ∀ d, d < 10 → digitChar d ∈ safeDateChars) n h
      · rw [List.mem_append] at hc
        rcases hc with hc | hc
        · exact ih (n / 10) c hc
        · simp only [List.mem_singleton] at hc
          subst hc
          exact (by decide : ∀ d, d < 10 → digitChar d ∈ safeDateChars) _
            (Nat.mod_lt n (by omega))

theorem natDigits_subset (n : Nat) : ∀ c ∈ natDigits n, c ∈ safeDateChars :=
  natDigitsAux_subset (n + 1) n

theorem intToString_subset (n : Int) : ∀ c ∈ intToString n, c ∈ safeDateChars := by
  intro c hc
  unfold intToString at hc
  rw [List.mem_append] at hc
  rcases hc with hc | hc
  · split at hc
    · simp only [List.mem_singleton] at hc
      subst hc
      decide
    · simp at hc
  · exact natDigits_subset _ c hc

theorem pad2_subset (n : Nat) : ∀ c ∈ pad2 n, c ∈ safeDateChars := by
  intro c hc
  unfold pad2 at hc
  split at hc
  · rcases List.mem_cons.mp hc with hc | hc
    · subst hc; decide
    · exact natDigits_subset _ c hc
  · exact natDigits_subset _ c hc

theorem pad4_subset (n : Nat) : ∀ c ∈ pad4 n, c ∈ safeDateChars := by
  intro c hc
  unfold pad4 at hc
  rw [List.mem_append] at hc
  rcases hc with hc | hc
  · rw [List.eq_of_mem_replicate hc]
    decide
  · exact natDigits_subset _ c hc

theorem renderYear_subset (y : Int) : ∀ c ∈ renderYear y, c ∈ safeDateChars := by
  intro c hc
  unfold renderYear at hc
  split at hc
  · exact pad4_subset _ c hc
  · rw [List.mem_append] at hc
    rcases hc with hc | hc
    · split at hc <;> (simp only [List.mem_singleton] at hc; subst hc; decide)
    · exact pad4_subset _ c hc

theorem renderOffsetPart_subset (off : Int) :
    ∀ c ∈ renderOffsetPart off, c ∈ safeDateChars := by
  intro c hc
  unfold renderOffsetPart at hc
  rw [List.mem_append, List.mem_append] at hc
  rcases hc with (hc | hc) | hc
  · split at hc <;> (simp only [List.mem_singleton] at hc; subst hc; decide)
  · exact pad2_subset _ c hc
  · rcases List.mem_cons.mp hc with hc | hc
    · subst hc; decide
    · exact pad2_subset _ c hc

theorem rfc3339Render_subset (utcSecs offsetSecs : Int) :
    ∀ c ∈ rfc3339Render utcSecs offsetSecs, c ∈ safeDateChars := by
  intro c hc
  unfold rfc3339Render at hc
  simp only [List.mem_append, List.mem_cons] at hc
  rcases hc with ((((((h | h) | h) | h) | h) | h) | h)
  · exact renderYear_subset _ c h
  · rcases h with h | h
    · subst h; decide
    · exact pad2_subset _ c h
  · rcases h with h | h
    · subst h; decide
    · exact pad2_subset _ c h
  · rcases h with h | h
    · subst h; decide
    · exact pad2_subset _ c h
  · rcases h with h | h
    · subst h; decide
    · exact pad2_subset _ c h
  · rcases h with h | h
    · subst h; decide
    · exact pad2_subset _ c h
  · exact renderOffsetPart_subset _ c h

theorem format_source_date_subset (seconds offset_minutes : Int) :
    ∀ c ∈ format_source_date seconds offset_minutes, c ∈ safeDateChars := by
  intro c hc
  unfold format_source_date at hc
  split at hc <;> try split at hc
  all_goals
    first
      | exact intToString_subset _ c hc
      | exact rfc3339Render_subset _ _ c hc

theorem format_source_date_no_nl_cr (seconds offset_minutes : Int) :
    ∀ c ∈ format_source_date seconds offset_minutes, c ≠ '\n' ∧ c ≠ '\r' := by
  intro c hc
  exact (by decide : ∀ c ∈ safeDateChars, c ≠ '\n' ∧ c ≠ '\r') c
    (format_source_date_subset seconds offset_minutes c hc)

/-! C1: marker round trip. -/

/-- C1.  Marker round-trip: for every SourceCommit whose hash is the
    40-character lowercase-hex commit identifier of the data model (and
    whose single-line string fields indeed contain no line break, as
    produced by ingestion), scanning the message produced by the Message
    Builder with the Marker Scanner's per-line marker extraction recovers
    exactly that commit's hash, so a commit created by the Commit Writer
    is always later recognized as mirrored. -/
theorem marker_round_trip (c : SourceCommit)
    (hlen : c.sha.length = 40)
    (hhex : ∀ ch ∈ c.sha, ch ∈ lowerHexChars)
    (hhint : ∀ ch ∈ c.source_repo_hint, ch ≠ '\n' ∧ ch ≠ '\r')
    (hsubj : ∀ ch ∈ c.subject, ch ≠ '\n' ∧ ch ≠ '\r')
    (hurl : ∀ u, c.source_web_base_url = some u → ∀ ch ∈ u, ch ≠ '\n' ∧ ch ≠ '\r') :
    ∃ msg, build_commit_message c = some msg ∧ extractMarkers msg = [c.sha] := by
  have hsize : ∀ ch ∈ c.sha, ch.utf8Size = 1 :=
    fun ch h => lowerHex_utf8Size ch (hhex ch h)
  have h12 : takeBytes 12 c.sha = some (c.sha.take 12) :=
    takeBytes_of_ascii 12 c.sha hsize (by rw [hlen]; omega)
  have hshasafe : ∀ ch ∈ c.sha, ch ≠ '\n' ∧ ch ≠ '\r' :=
    fun ch h => lowerHex_not_nl_cr ch (hhex ch h)
  have htakesafe : ∀ ch ∈ c.sha.take 12, ch ≠ '\n' ∧ ch ≠ '\r' :=
    fun ch h => hshasafe ch (List.take_subset 12 c.sha h)
  have hmark : markerOfLine (markerText ++ c.sha) = some c.sha :=
    markerOfLine_marker hlen hhex
  have hdate := format_source_date_no_nl_cr c.author_date_seconds c.author_offset_minutes
  have hA : ∀ ch ∈ "Vanity mirror: ".data, ch ≠ '\n' ∧ ch ≠ '\r' := by decide
  have hB : ∀ ch ∈ "Source-Repo: ".data, ch ≠ '\n' ∧ ch ≠ '\r' := by decide
  have hC : ∀ ch ∈ markerText, ch ≠ '\n' ∧ ch ≠ '\r' := by decide
  have hD : ∀ ch ∈ "Source-Commit-URL: ".data, ch ≠ '\n' ∧ ch ≠ '\r' := by decide
  have hE : ∀ ch ∈ "Source-Date: ".data, ch ≠ '\n' ∧ ch ≠ '\r' := by decide
  have hF : ∀ ch ∈ "Source-Subject: ".data, ch ≠ '\n' ∧ ch ≠ '\r' := by decide
  have hG : ∀ ch ∈ "/commit/".data, ch ≠ '\n' ∧ ch ≠ '\r' := by decide
  have hall : ∀ l ∈ messageLines c (c.sha.take 12), ∀ ch ∈ l, ch ≠ '\n' ∧ ch ≠ '\r' := by
    intro l hl
    unfold messageLines at hl
    rw [List.mem_append] at hl
    rcases hl with hl | hl
    · rw [List.mem_append] at hl
      rcases hl with hl | hl
      · simp only [List.mem_cons, List.not_mem_nil, or_false] at hl
        rcases hl with rfl | rfl | rfl | rfl
        · exact List.forall_mem_append.mpr ⟨hA, htakesafe⟩
        · exact fun ch hch => absurd hch (List.not_mem_nil ch)
        · exact List.forall_mem_append.mpr ⟨hB, hhint⟩
        · exact List.forall_mem_append.mpr ⟨hC, hshasafe⟩
      · cases hbase : c.source_web_base_url with
        | none =>
            simp only [source_commit_url, hbase, Option.map_none'] at hl
            exact absurd hl (List.not_mem_nil l)
        | some base =>
            simp only [source_commit_url, hbase, Option.map_some', List.mem_singleton] at hl
            subst hl
            refine List.forall_mem_append.mpr ⟨hD, ?_⟩
            refine List.forall_mem_append.mpr ⟨List.forall_mem_append.mpr ⟨?_, hG⟩, hshasafe⟩
            exact fun ch hch => hurl base hbase ch (trimEndMatchesChar_subset '/' base hch)
    · simp only [List.mem_cons, List.not_mem_nil, or_false] at hl
      rcases hl with rfl | rfl
      · exact List.forall_mem_append.mpr ⟨hE, hdate⟩
      · exact List.forall_mem_append.mpr ⟨hF, hsubj⟩
  have hlast : (messageLines c (c.sha.take 12)).getLast? ≠ some [] := by
    unfold messageLines
    rw [List.getLast?_append_of_ne_nil _ (by simp)]
    simp
  refine ⟨joinNl (messageLines c (c.sha.take 12)), by simp only [build_commit_message, h12], ?_⟩
  unfold extractMarkers
  rw [rustLines_joinNl _ hall hlast]
  cases hbase : c.source_web_base_url with
  | none =>
      unfold messageLines
      simp only [source_commit_url, hbase, Option.map_none', List.filterMap_append,
        List.filterMap_cons, List.filterMap_nil, hmark, markerOfLine_mirror_line,
        markerOfLine_line_s, markerOfLine_empty, List.nil_append, List.append_nil,
        List.cons_append, List.singleton_append]
  | some base =>
      unfold messageLines
      simp only [source_commit_url, hbase, Option.map_some', List.filterMap_append,
        List.filterMap_cons, List.filterMap_nil, hmark, markerOfLine_mirror_line,
        markerOfLine_line_s, markerOfLine_empty, List.nil_append, List.append_nil,
        List.cons_append, List.singleton_append]

/-- Witness for C1: the round trip at a concrete source commit with a web
    base URL present. -/
theorem marker_round_trip_witness :
    ∃ msg,
      build_commit_message
        { sha := "0123456789abcdef0123456789abcdef01234567".data
          source_repo_hint := "https://github.com/TeamDman/x".data
          source_web_base_url := some "https://github.com/TeamDman/x".data
          author_date_seconds := 1700000000
          author_offset_minutes := -300
          subject := "hello".data } = some msg ∧
      extractMarkers msg = ["0123456789abcdef0123456789abcdef01234567".data] := by
  exact marker_round_trip _ (by decide) (by decide) (by decide) (by decide)
    (by
      intro u h
      have hu : u = "https://github.com/TeamDman/x".data := by
        simpa using h.symm
      subst hu
      decide)

/-! C10: totality precondition of the Message Builder. -/

/-- C10.  build_commit_message slices the first 12 bytes of the hash with
    no length check: for a hash shorter than 12 bytes it panics (modelled
    as none) instead of returning a message, while every 40-character hex
    hash satisfies the precondition and yields a message. -/
theorem build_commit_message_totality (c : SourceCommit) :
    (utf8Length c.sha < 12 → build_commit_message c = none) ∧
    (c.sha.length = 40 → (∀ ch ∈ c.sha, ch ∈ lowerHexChars) →
      (build_commit_message c).isSome = true) := by
  constructor
  · intro h
    unfold build_commit_message
    rw [takeBytes_too_short 12 c.sha h]
  · intro hlen hhex
    unfold build_commit_message
    rw [takeBytes_of_ascii 12 c.sha (fun ch hc => lowerHex_utf8Size ch (hhex ch hc))
      (by rw [hlen]; omega)]
    rfl

/-- Witness for C10: a 3-byte hash makes the builder panic; a 40-character
    hex hash gives a message. -/
theorem build_commit_message_totality_witness :
    build_commit_message
      { sha := "abc".data, source_repo_hint := "r".data, source_web_base_url := none
        author_date_seconds := 0, author_offset_minutes := 0, subject := "s".data } = none ∧
    (build_commit_message
      { sha := "ffffffffffffffffffffffffffffffffffffffff".data
        source_repo_hint := "r".data, source_web_base_url := none
        author_date_seconds := 0, author_offset_minutes := 0,
        subject := "s".data }).isSome = true :=
  ⟨(build_commit_message_totality _).1 (by decide),
   (build_commit_message_totality _).2 (by decide) (by decide)⟩

/-! C5: the Source-Date rendering. -/

/-- Counterexample to C5 as stated: for offset_minutes = 1440 the offset
    is pathological (86400 seconds is out of range for a fixed offset),
    yet the rendering does not fall back to the raw seconds string "0": it
    renders RFC-3339 in UTC. -/
theorem format_source_date_pathological_offset_cex :
    format_source_date 0 1440 = "1970-01-01T00:00:00+00:00".data ∧
    format_source_date 0 1440 ≠ intToString 0 := by
  constructor
  · decide
  · decide

/-- C5 amended.  The Source-Date field renders an RFC-3339 timestamp in
    the source commit's original UTC offset; when the offset cannot be
    constructed (pathological offset value) it falls back to rendering in
    UTC (offset zero), and it falls back to the raw integer
    seconds-since-epoch exactly when the timestamp itself is outside the
    representable datetime range; the rendering never fails. -/
theorem format_source_date_behavior (seconds offset_minutes : Int) :
    (tsInRange seconds = true →
      format_source_date seconds offset_minutes =
        rfc3339Render seconds (effectiveOffsetSeconds offset_minutes)) ∧
    (tsInRange seconds = false →
      format_source_date seconds offset_minutes = intToString seconds) := by
  have h0 : fixedOffsetEastOpt 0 = some 0 := rfl
  by_cases hoff : -86400 < i32SatMul60 offset_minutes ∧ i32SatMul60 offset_minutes < 86400 <;>
    constructor <;> intro hts <;>
      simp [format_source_date, effectiveOffsetSeconds, fixedOffsetEastOpt,
        utcTimestampOptSingle, hoff, hts, Option.orElse]

/-- Witness for the amended C5 at concrete inputs: an in-range timestamp
    with a constructible offset, and an out-of-range timestamp. -/
theorem format_source_date_behavior_witness :
    format_source_date 1700000000 (-300) =
      rfc3339Render 1700000000 (effectiveOffsetSeconds (-300)) ∧
    format_source_date 99999999999999999 0 = intToString 99999999999999999 :=
  ⟨(format_source_date_behavior 1700000000 (-300)).1 (by decide),
   (format_source_date_behavior 99999999999999999 0).2 (by decide)⟩

/-! Comparator lemmas. -/

theorem cmpN_eq_eq_iff {a b : Nat} : cmpN a b = Ordering.eq ↔ a = b := by
  unfold cmpN
  split_ifs <;> simp <;> omega

theorem cmpN_lt_iff {a b : Nat} : cmpN a b = Ordering.lt ↔ a < b := by
  unfold cmpN
  split_ifs <;> simp <;> omega

theorem cmpN_swap (a b : Nat) : cmpN b a = (cmpN a b).swap := by
  unfold cmpN
  split_ifs <;> (simp [Ordering.swap]; try omega)

theorem cmpI_eq_eq_iff {a b : Int} : cmpI a b = Ordering.eq ↔ a = b := by
  unfold cmpI
  split_ifs <;> simp <;> omega

theorem cmpI_lt_iff {a b : Int} : cmpI a b = Ordering.lt ↔ a < b := by
  unfold cmpI
  split_ifs <;> simp <;> omega

theorem cmpI_swap (a b : Int) : cmpI b a = (cmpI a b).swap := by
  unfold cmpI
  split_ifs <;> (simp [Ordering.swap]; try omega)

theorem char_toNat_inj {a b : Char} (h : a.toNat = b.toNat) : a = b := by
  rw [← Char.ofNat_toNat a, ← Char.ofNat_toNat b, h]

theorem cmpChar_eq_eq_iff {a b : Char} : cmpChar a b = Ordering.eq ↔ a = b := by
  unfold cmpChar
  rw [cmpN_eq_eq_iff]
  exact ⟨char_toNat_inj, fun h => h ▸ rfl⟩

theorem cmpChar_lt_iff {a b : Char} : cmpChar a b = Ordering.lt ↔ a.toNat < b.toNat := by
  unfold cmpChar
  exact cmpN_lt_iff

theorem cmpChar_swap (a b : Char) : cmpChar b a = (cmpChar a b).swap := cmpN_swap _ _

theorem cmpStr_swap : ∀ (s t : List Char), cmpStr t s = (cmpStr s t).swap := by
  intro s
  induction s with
  | nil => intro t; cases t <;> rfl
  | cons x xs ih =>
      intro t
      cases t with
      | nil => rfl
      | cons y ys =>
          show (match cmpChar y x with
                | Ordering.eq => cmpStr ys xs
                | o => o) = _
          rw [cmpChar_swap x y]
          cases hxy : cmpChar x y <;> simp [Ordering.swap, cmpStr, hxy, ih ys]

theorem cmpStr_eq_eq_iff : ∀ {s t : List Char}, cmpStr s t = Ordering.eq ↔ s = t := by
  intro s
  induction s with
  | nil => intro t; cases t <;> simp [cmpStr]
  | cons x xs ih =>
      intro t
      cases t with
      | nil => simp [cmpStr]
      | cons y ys =>
          show (match cmpChar x y with
                | Ordering.eq => cmpStr xs ys
                | o => o) = Ordering.eq ↔ _
          cases hxy : cmpChar x y with
          | eq =>
              have hx : x = y := cmpChar_eq_eq_iff.mp hxy
              subst hx
              simp [ih]
          | lt =>
              have hne : x ≠ y := by
                intro h
                subst h
                rw [cmpChar_eq_eq_iff.mpr rfl] at hxy
                cases hxy
              simp [hne]
          | gt =>
              have hne : x ≠ y := by
                intro h
                subst h
                rw [cmpChar_eq_eq_iff.mpr rfl] at hxy
                cases hxy
              simp [hne]

theorem cmpStr_lt_trans :
    ∀ {a b c : List Char}, cmpStr a b = Ordering.lt → cmpStr b c = Ordering.lt →
      cmpStr a c = Ordering.lt := by
  intro a
  induction a with
  | nil =>
      intro b c h1 h2
      cases b with
      | nil => cases h1
      | cons y ys =>
          cases c with
          | nil => cases h2
          | cons z zs => rfl
  | cons x xs ih =>
      intro b c h1 h2
      cases b with
      | nil => cases h1
      | cons y ys =>
          cases c with
          | nil => cases h2
          | cons z zs =>
              show (match cmpChar x z with
                    | Ordering.eq => cmpStr xs zs
                    | o => o) = Ordering.lt
              have h1' : (match cmpChar x y with
                          | Ordering.eq => cmpStr xs ys
                          | o => o) = Ordering.lt := h1
              have h2' : (match cmpChar y z with
                          | Ordering.eq => cmpStr ys zs
                          | o => o) = Ordering.lt := h2
              cases hxy : cmpChar x y with
              | gt => rw [hxy] at h1'; cases h1'
              | lt =>
                  cases hyz : cmpChar y z with
                  | gt => rw [hyz] at h2'; cases h2'
                  | lt =>
                      have : cmpChar x z = Ordering.lt := by
                        rw [cmpChar_lt_iff] at hxy hyz ⊢
                        omega
                      rw [this]
                  | eq =>
                      have hy : y = z := cmpChar_eq_eq_iff.mp hyz
                      subst hy
                      rw [hxy]
              | eq =>
                  have hx : x = y := cmpChar_eq_eq_iff.mp hxy
                  subst hx
                  rw [hxy] at h1'
                  cases hyz : cmpChar x z with
                  | gt => rw [hyz] at h2'; cases h2'
                  | lt => rfl
                  | eq =>
                      have hz : x = z := cmpChar_eq_eq_iff.mp hyz
                      subst hz
                      rw [hyz] at h2'
                      exact ih h1' h2'

theorem commitCmp_swap (a b : SourceCommit) : commitCmp b a = (commitCmp a b).swap := by
  unfold commitCmp
  rw [cmpI_swap, cmpStr_swap]
  cases cmpI a.author_date_seconds b.author_date_seconds <;>
    cases cmpStr a.sha b.sha <;> rfl

theorem commitCmp_eq_lt_iff {a b : SourceCommit} :
    commitCmp a b = Ordering.lt ↔ keyLt a b := by
  unfold commitCmp keyLt
  cases hts : cmpI a.author_date_seconds b.author_date_seconds with
  | lt =>
      simp only [Ordering.then]
      rw [cmpI_lt_iff] at hts
      simp [hts]
  | eq =>
      simp only [Ordering.then]
      rw [cmpI_eq_eq_iff] at hts
      simp [hts]
  | gt =>
      simp only [Ordering.then]
      have h1 : ¬ a.author_date_seconds < b.author_date_seconds := by
        intro h
        rw [← cmpI_lt_iff] at h
        rw [hts] at h
        cases h
      have h2 : ¬ a.author_date_seconds = b.author_date_seconds := by
        intro h
        rw [← cmpI_eq_eq_iff] at h
        rw [hts] at h
        cases h
      simp [h1, h2]

theorem commitCmp_eq_eq_iff {a b : SourceCommit} :
    commitCmp a b = Ordering.eq ↔
      (a.author_date_seconds = b.author_date_seconds ∧ a.sha = b.sha) := by
  unfold commitCmp
  cases hts : cmpI a.author_date_seconds b.author_date_seconds with
  | lt =>
      simp only [Ordering.then]
      have : ¬ a.author_date_seconds = b.author_date_seconds := by
        intro h
        rw [← cmpI_eq_eq_iff] at h
        rw [hts] at h
        cases h
      simp [this]
  | eq =>
      simp only [Ordering.then]
      rw [cmpI_eq_eq_iff] at hts
      simp [hts, cmpStr_eq_eq_iff]
  | gt =>
      simp only [Ordering.then]
      have : ¬ a.author_date_seconds = b.author_date_seconds := by
        intro h
        rw [← cmpI_eq_eq_iff] at h
        rw [hts] at h
        cases h
      simp [this]

instance : IsTotal SourceCommit commitLe where
  total a b := by
    unfold commitLe
    cases h : commitCmp a b with
    | lt => exact Or.inl (by simp [h])
    | eq => exact Or.inl (by simp [h])
    | gt =>
        refine Or.inr ?_
        rw [commitCmp_swap, h]
        simp [Ordering.swap]

instance : IsTrans SourceCommit commitLe where
  trans a b c hab hbc := by
    unfold commitLe at hab hbc ⊢
    have hab' : commitCmp a b = Ordering.lt ∨ commitCmp a b = Ordering.eq := by
      cases h : commitCmp a b
      · exact Or.inl rfl
      · exact Or.inr rfl
      · exact absurd h hab
    have hbc' : commitCmp b c = Ordering.lt ∨ commitCmp b c = Ordering.eq := by
      cases h : commitCmp b c
      · exact Or.inl rfl
      · exact Or.inr rfl
      · exact absurd h hbc
    have : commitCmp a c = Ordering.lt ∨ commitCmp a c = Ordering.eq := by
      rcases hab' with hab' | hab' <;> rcases hbc' with hbc' | hbc'
      · rw [commitCmp_eq_lt_iff] at hab' hbc'
        refine Or.inl (commitCmp_eq_lt_iff.mpr ?_)
        rcases hab' with h1 | ⟨h1, h1s⟩ <;> rcases hbc' with h2 | ⟨h2, h2s⟩
        · exact Or.inl (lt_trans h1 h2)
        · exact Or.inl (h2 ▸ h1)
        · exact Or.inl (h1 ▸ h2)
        · exact Or.inr ⟨h1.trans h2, cmpStr_lt_trans h1s h2s⟩
      · rw [commitCmp_eq_lt_iff] at hab'
        rw [commitCmp_eq_eq_iff] at hbc'
        refine Or.inl (commitCmp_eq_lt_iff.mpr ?_)
        rcases hab' with h1 | ⟨h1, h1s⟩
        · exact Or.inl (hbc'.1 ▸ h1)
        · exact Or.inr ⟨h1.trans hbc'.1, hbc'.2 ▸ h1s⟩
      · rw [commitCmp_eq_eq_iff] at hab'
        rw [commitCmp_eq_lt_iff] at hbc'
        refine Or.inl (commitCmp_eq_lt_iff.mpr ?_)
        rcases hbc' with h2 | ⟨h2, h2s⟩
        · exact Or.inl (hab'.1 ▸ h2)
        · exact Or.inr ⟨hab'.1.trans h2, hab'.2 ▸ h2s⟩
      · rw [commitCmp_eq_eq_iff] at hab' hbc'
        exact Or.inr (commitCmp_eq_eq_iff.mpr
          ⟨hab'.1.trans hbc'.1, hab'.2.trans hbc'.2⟩)
    rcases this with h | h <;> simp [h]

/-! Deduplication lemmas. -/

theorem dedupFirstAux_subset :
    ∀ (seen : List (List Char)) (l : List SourceCommit), dedupFirstAux seen l ⊆ l := by
  intro seen l
  induction l generalizing seen with
  | nil => exact fun x hx => hx
  | cons c rest ih =>
      unfold dedupFirstAux
      split
      · exact fun x hx => List.mem_cons_of_mem c (ih seen hx)
      · intro x hx
        rcases List.mem_cons.mp hx with rfl | hx
        · exact List.mem_cons_self x rest
        · exact List.mem_cons_of_mem c (ih _ hx)

theorem dedupFirstAux_sha_nodup :
    ∀ (seen : List (List Char)) (l : List SourceCommit),
      ((dedupFirstAux seen l).map (fun c => c.sha)).Nodup ∧
      ∀ s ∈ (dedupFirstAux seen l).map (fun c => c.sha), s ∉ seen := by
  intro seen l
  induction l generalizing seen with
  | nil => constructor <;> simp [dedupFirstAux]
  | cons c rest ih =>
      unfold dedupFirstAux
      split
      · exact ih seen
      · rename_i hc
        obtain ⟨h1, h2⟩ := ih (c.sha :: seen)
        refine ⟨?_, ?_⟩
        · rw [List.map_cons, List.nodup_cons]
          refine ⟨fun hmem => h2 _ hmem (by simp), h1⟩
        · intro s hs
          rw [List.map_cons, List.mem_cons] at hs
          rcases hs with rfl | hs
          · exact hc
          · intro hseen
            exact h2 s hs (by simp [hseen])

theorem dedupFirstAux_filter_of_seen (sha : List Char) :
    ∀ (seen : List (List Char)) (l : List SourceCommit), sha ∈ seen →
      (dedupFirstAux seen l).filter (fun x => decide (x.sha = sha)) = [] := by
  intro seen l
  induction l generalizing seen with
  | nil => intro _; rfl
  | cons c rest ih =>
      intro hs
      unfold dedupFirstAux
      split
      · exact ih seen hs
      · rename_i hc
        rw [List.filter_cons]
        have hne : (decide (c.sha = sha)) = false := by
          apply decide_eq_false
          intro heq
          exact hc (heq ▸ hs)
        rw [if_neg (by simp [hne])]
        exact ih (c.sha :: seen) (List.mem_cons_of_mem _ hs)

theorem dedupFirstAux_filter_first (sha : List Char) :
    ∀ (seen : List (List Char)) (l : List SourceCommit), sha ∉ seen →
      (dedupFirstAux seen l).filter (fun x => decide (x.sha = sha)) =
        (l.find? (fun x => decide (x.sha = sha))).toList := by
  intro seen l
  induction l generalizing seen with
  | nil => intro _; rfl
  | cons c rest ih =>
      intro hs
      by_cases hcs : c.sha ∈ seen
      · have hcne : (decide (c.sha = sha)) = false := by
          apply decide_eq_false
          intro heq
          exact hs (heq ▸ hcs)
        unfold dedupFirstAux
        rw [if_pos hcs, List.find?_cons_of_neg _ (by simp at hcne ⊢; exact hcne)]
        exact ih seen hs
      · unfold dedupFirstAux
        rw [if_neg hcs, List.filter_cons]
        by_cases heq : c.sha = sha
        · rw [if_pos (by simp [heq]), List.find?_cons_of_pos _ (by simp [heq])]
          rw [dedupFirstAux_filter_of_seen sha (c.sha :: seen) rest (by simp [heq])]
          rfl
        · rw [if_neg (by simp [heq]), List.find?_cons_of_neg _ (by simp [heq])]
          exact ih (c.sha :: seen) (by
            intro hmem
            rcases List.mem_cons.mp hmem with h | h
            · exact heq h.symm
            · exact hs h)

/-! gather_source_commits structure. -/

theorem gather_perm (read_repos : List (List SourceCommit)) :
    (gather_source_commits read_repos).Perm (dedupFirstAux [] read_repos.flatten) :=
  List.perm_insertionSort _ _

theorem gather_sorted (read_repos : List (List SourceCommit)) :
    List.Pairwise commitLe (gather_source_commits read_repos) :=
  List.sorted_insertionSort commitLe (dedupFirstAux [] read_repos.flatten)

theorem gather_sha_nodup (read_repos : List (List SourceCommit)) :
    ((gather_source_commits read_repos).map (fun c => c.sha)).Nodup :=
  ((gather_perm read_repos).map (fun c => c.sha)).nodup_iff.mpr
    (dedupFirstAux_sha_nodup [] read_repos.flatten).1

theorem commitLe_ne_keyLt {a b : SourceCommit} (hle : commitLe a b) (hne : a.sha ≠ b.sha) :
    keyLt a b := by
  cases h : commitCmp a b with
  | lt => exact commitCmp_eq_lt_iff.mp h
  | eq => exact absurd (commitCmp_eq_eq_iff.mp h).2 hne
  | gt => exact absurd h hle

theorem gather_pairwise_keyLt (read_repos : List (List SourceCommit)) :
    List.Pairwise keyLt (gather_source_commits read_repos) := by
  have hsorted : List.Pairwise commitLe (gather_source_commits read_repos) :=
    gather_sorted read_repos
  have hne : List.Pairwise (fun a b : SourceCommit => a.sha ≠ b.sha)
      (gather_source_commits read_repos) :=
    List.pairwise_map.mp (gather_sha_nodup read_repos)
  exact (hsorted.and hne).imp (fun h => commitLe_ne_keyLt h.1 h.2)

/-! C2: merge/dedup keeps the first-seen occurrence of each hash. -/

/-- C2.  First-seen wins: for every family of per-repository ingestion
    results and every hash occurring in them, the merged output of
    gather_source_commits contains exactly one commit with that hash,
    namely the first occurrence in configured source-repo list order
    (hence in particular its source_repo_hint is that of the repository
    listed first). -/
theorem merge_dedup_first_seen (read_repos : List (List SourceCommit)) (sha : List Char)
    (h : ∃ c ∈ read_repos.flatten, c.sha = sha) :
    ∃ c, read_repos.flatten.find? (fun x => decide (x.sha = sha)) = some c ∧
      (gather_source_commits read_repos).filter (fun x => decide (x.sha = sha)) = [c] := by
  obtain ⟨c0, hc0, hsha0⟩ := h
  have hfind : ∃ c, read_repos.flatten.find? (fun x => decide (x.sha = sha)) = some c := by
    have : ∃ x ∈ read_repos.flatten, (fun x : SourceCommit => decide (x.sha = sha)) x := by
      exact ⟨c0, hc0, by simp [hsha0]⟩
    obtain ⟨x, hx1, hx2⟩ := this
    rcases hfw : read_repos.flatten.find? (fun x => decide (x.sha = sha)) with _ | c
    · exact absurd hfw (by
        rw [List.find?_eq_none]
        push_neg
        exact ⟨x, hx1, by simpa using hx2⟩)
    · exact ⟨c, hfw⟩
  obtain ⟨c, hc⟩ := hfind
  refine ⟨c, hc, ?_⟩
  have hdedup : (dedupFirstAux [] read_repos.flatten).filter
      (fun x => decide (x.sha = sha)) = [c] := by
    rw [dedupFirstAux_filter_first sha [] read_repos.flatten (by simp), hc]
    rfl
  have hperm := (gather_perm read_repos).filter (fun x => decide (x.sha = sha))
  rw [hdedup] at hperm
  exact List.perm_singleton.mp hperm

/-! C3: the merged list is globally ordered by (timestamp, hash). -/

/-- C3.  Global ordering: the merged, deduplicated commit list is sorted
    strictly by (author timestamp, hash): pairwise, every earlier entry
    has a smaller key; for entries with distinct timestamps, position
    order coincides with timestamp order; for equal timestamps the
    lexicographically smaller hash comes first. -/
theorem global_ordering (read_repos : List (List SourceCommit)) :
    List.Pairwise keyLt (gather_source_commits read_repos) ∧
    (∀ i j : Fin (gather_source_commits read_repos).length,
      ((gather_source_commits read_repos).get i).author_date_seconds ≠
          ((gather_source_commits read_repos).get j).author_date_seconds →
        (i < j ↔ ((gather_source_commits read_repos).get i).author_date_seconds <
          ((gather_source_commits read_repos).get j).author_date_seconds)) ∧
    (∀ i j : Fin (gather_source_commits read_repos).length, i < j →
      ((gather_source_commits read_repos).get i).author_date_seconds =
          ((gather_source_commits read_repos).get j).author_date_seconds →
        cmpStr ((gather_source_commits read_repos).get i).sha
          ((gather_source_commits read_repos).get j).sha = Ordering.lt) := by
  have hp := gather_pairwise_keyLt read_repos
  refine ⟨hp, ?_, ?_⟩
  · intro i j hne
    constructor
    · intro hij
      rcases List.pairwise_iff_get.mp hp i j hij with h | ⟨heq, _⟩
      · exact h
      · exact absurd heq hne
    · intro hlt
      rcases lt_trichotomy i j with h | h | h
      · exact h
      · subst h
        exact absurd rfl hne
      · rcases List.pairwise_iff_get.mp hp j i h with h2 | ⟨heq, _⟩
        · exact absurd (lt_trans hlt h2) (lt_irrefl _)
        · exact absurd heq.symm hne
  · intro i j hij heq
    rcases List.pairwise_iff_get.mp hp i j hij with h | ⟨_, h⟩
    · rw [heq] at h
      exact absurd h (lt_irrefl _)
    · exact h

/-! C6: limit semantics of the Pending Set Resolver. -/

/-- C6.  Limit semantics: with a limit k the pending list is exactly the
    first k entries of the unlimited (filtered, sorted) pending list; when
    k is at least the pending count nothing is dropped; and every kept
    entry strictly precedes every dropped entry in the chronological
    (timestamp, hash) order, so exactly the k earliest pending commits are
    processed. -/
theorem limit_semantics (repo : ThisRepo) (read_repos : List (List SourceCommit)) (k : Nat) :
    pendingOf repo read_repos (some k) = (pendingOf repo read_repos none).take k ∧
    ((pendingOf repo read_repos none).length ≤ k →
      pendingOf repo read_repos (some k) = pendingOf repo read_repos none) ∧
    ∀ x ∈ (pendingOf repo read_repos none).take k,
      ∀ y ∈ (pendingOf repo read_repos none).drop k, keyLt x y := by
  have h1 : pendingOf repo read_repos (some k) = (pendingOf repo read_repos none).take k := rfl
  refine ⟨h1, ?_, ?_⟩
  · intro hlen
    rw [h1]
    exact List.take_of_length_le hlen
  · have hp : List.Pairwise keyLt (pendingOf repo read_repos none) :=
      List.Pairwise.sublist (List.filter_sublist _) (gather_pairwise_keyLt read_repos)
    have hp2 : List.Pairwise keyLt
        ((pendingOf repo read_repos none).take k ++ (pendingOf repo read_repos none).drop k) := by
      rw [List.take_append_drop]
      exact hp
    exact (List.pairwise_append.mp hp2).2.2

/-- Witness for C2 at two single-commit repositories sharing one hash. -/
theorem merge_dedup_first_seen_witness :
    ∃ c, ([[exCommitA], [exCommitA2]].flatten.find?
        (fun x => decide (x.sha = exCommitA.sha))) = some c ∧
      (gather_source_commits [[exCommitA], [exCommitA2]]).filter
        (fun x => decide (x.sha = exCommitA.sha)) = [c] :=
  merge_dedup_first_seen [[exCommitA], [exCommitA2]] exCommitA.sha
    ⟨exCommitA, by decide, rfl⟩

/-- Witness for C3 at two commits with distinct timestamps. -/
theorem global_ordering_witness :
    List.Pairwise keyLt (gather_source_commits [[exCommitA], [exCommitB]]) ∧
    ((⟨0, by decide⟩ : Fin (gather_source_commits [[exCommitA], [exCommitB]]).length) <
        ⟨1, by decide⟩ ↔
      ((gather_source_commits [[exCommitA], [exCommitB]]).get
          ⟨0, by decide⟩).author_date_seconds <
        ((gather_source_commits [[exCommitA], [exCommitB]]).get
          ⟨1, by decide⟩).author_date_seconds) :=
  ⟨(global_ordering [[exCommitA], [exCommitB]]).1,
   (global_ordering [[exCommitA], [exCommitB]]).2.1 ⟨0, by decide⟩ ⟨1, by decide⟩
     (by decide)⟩

/-- Witness for C6: truncation at k = 1 and the no-op case k = 5 on a
    two-commit pending set. -/
theorem limit_semantics_witness :
    pendingOf exRepoNoOrigin [[exCommitA], [exCommitB]] (some 1) =
      (pendingOf exRepoNoOrigin [[exCommitA], [exCommitB]] none).take 1 ∧
    pendingOf exRepoNoOrigin [[exCommitA], [exCommitB]] (some 5) =
      pendingOf exRepoNoOrigin [[exCommitA], [exCommitB]] none :=
  ⟨(limit_semantics exRepoNoOrigin [[exCommitA], [exCommitB]] 1).1,
   (limit_semantics exRepoNoOrigin [[exCommitA], [exCommitB]] 5).2.1 (by decide)⟩

/-! C9: Marker Scanner on an empty target. -/

/-- C9.  If the target repository has no current branch tip (no commits),
    the Marker Scanner returns the empty marker set rather than failing. -/
theorem marker_scanner_empty_target (repo : ThisRepo) (h : repo.chain = []) :
    existing_mirrored_shas repo = [] := by
  unfold existing_mirrored_shas
  rw [h]
  rfl

/-- Witness for C9 at a concrete empty target repository. -/
theorem marker_scanner_empty_target_witness :
    existing_mirrored_shas exRepoEmpty = [] :=
  marker_scanner_empty_target exRepoEmpty rfl

/-! C7: Commit Writer postcondition. -/

/-- C7.  Every commit created by create_empty_commit has exactly one
    parent (the previous branch tip), reuses the tip's tree unmodified,
    stamps both author and committer with the source commit's original
    authorship seconds and offset (no run-time clock exists in the
    function at all), and advances the tip; with no existing tip commit it
    fails. -/
theorem create_empty_commit_spec (repo : ThisRepo) (message : List Char)
    (source : SourceCommit) :
    (repo.chain.getLast? = none →
      create_empty_commit repo message source =
        Except.error "this-repo must have at least one commit".data) ∧
    (∀ tipc, repo.chain.getLast? = some tipc →
      ∃ newc, create_empty_commit repo message source =
          Except.ok (newc, { repo with chain := repo.chain ++ [newc] }) ∧
        newc.parents = [tipc.id] ∧
        newc.tree = tipc.tree ∧
        newc.message = message ∧
        newc.authorSeconds = source.author_date_seconds ∧
        newc.authorOffsetMinutes = source.author_offset_minutes ∧
        newc.committerSeconds = source.author_date_seconds ∧
        newc.committerOffsetMinutes = source.author_offset_minutes) := by
  constructor
  · intro h
    unfold create_empty_commit
    rw [h]
  · intro tipc h
    unfold create_empty_commit
    rw [h]
    exact ⟨_, rfl, rfl, rfl, rfl, rfl, rfl, rfl, rfl⟩

/-- Witness for C7: failure on an empty target and the postcondition at a
    one-commit target. -/
theorem create_empty_commit_spec_witness :
    create_empty_commit exRepoEmpty "m".data exCommitA =
      Except.error "this-repo must have at least one commit".data ∧
    ∃ newc, create_empty_commit exRepoNoOrigin "m".data exCommitA =
        Except.ok (newc, { exRepoNoOrigin with chain := exRepoNoOrigin.chain ++ [newc] }) ∧
      newc.parents = [exTip.id] ∧
      newc.tree = exTip.tree ∧
      newc.message = "m".data ∧
      newc.authorSeconds = exCommitA.author_date_seconds ∧
      newc.authorOffsetMinutes = exCommitA.author_offset_minutes ∧
      newc.committerSeconds = exCommitA.author_date_seconds ∧
      newc.committerOffsetMinutes = exCommitA.author_offset_minutes :=
  ⟨(create_empty_commit_spec exRepoEmpty "m".data exCommitA).1 rfl,
   (create_empty_commit_spec exRepoNoOrigin "m".data exCommitA).2 exTip rfl⟩

/-! C4: the preview-mode summary. -/

theorem runPending_dry (repo : ThisRepo) :
    ∀ pending : List SourceCommit,
      (∀ c ∈ pending, (build_commit_message c).isSome = true) →
      runPending repo true pending = Except.ok repo := by
  intro pending
  induction pending with
  | nil => intro _; rfl
  | cons c rest ih =>
      intro h
      have hc := h c (by simp)
      unfold runPending
      rcases hb : build_commit_message c with _ | msg
      · rw [hb] at hc
        cases hc
      · exact ih (fun x hx => h x (by simp [hx]))

theorem pendingOf_subset (repo : ThisRepo) (read_repos : List (List SourceCommit))
    (limit : Option Nat) :
    ∀ c ∈ pendingOf repo read_repos limit, c ∈ read_repos.flatten := by
  intro c hc
  have hc2 : c ∈ (gather_source_commits read_repos).filter
      (fun c => !(decide (c.sha ∈ existing_mirrored_shas repo))) := by
    cases limit with
    | none => exact hc
    | some k => exact List.take_subset _ _ hc
  have hc3 : c ∈ gather_source_commits read_repos := (List.filter_sublist _).subset hc2
  have hc4 : c ∈ dedupFirstAux [] read_repos.flatten := (gather_perm read_repos).subset hc3
  exact dedupFirstAux_subset [] read_repos.flatten hc4

/-- Counterexample to C4 as stated: a preview (dry_run) run over one
    unmirrored source commit returns created = 1, not zero. -/
theorem preview_created_nonzero_cex :
    sync exRepoNoOrigin [[exCommitA]] true false none =
      Except.ok ({ total_source_commits := 1, existing_markers := 0, created := 1 },
        exRepoNoOrigin) ∧ (1 : Nat) ≠ 0 :=
  ⟨by decide, by decide⟩

/-- C4 amended.  In preview mode the run performs no write (the returned
    target state is unchanged) and the summary's created field reports the
    would-be-created count: the number of pending commits after marker
    filtering and the optional limit, not zero. -/
theorem preview_reports_would_be_counts (repo : ThisRepo)
    (read_repos : List (List SourceCommit)) (allow : Bool) (limit : Option Nat)
    (hne : read_repos ≠ [])
    (hok : ∀ c ∈ read_repos.flatten, (build_commit_message c).isSome = true) :
    sync repo read_repos true allow limit =
      Except.ok ({ total_source_commits := (gather_source_commits read_repos).length
                   existing_markers := (existing_mirrored_shas repo).length
                   created := (pendingOf repo read_repos limit).length }, repo) := by
  have hrun : runPending repo true (pendingOf repo read_repos limit) = Except.ok repo :=
    runPending_dry repo _ (fun c hc => hok c (pendingOf_subset repo read_repos limit c hc))
  unfold sync
  rw [if_neg (by simpa using hne), if_pos rfl, hrun]

/-- Witness for the amended C4 at a concrete preview run. -/
theorem preview_reports_would_be_counts_witness :
    sync exRepoNoOrigin [[exCommitB]] true true (some 3) =
      Except.ok ({ total_source_commits := (gather_source_commits [[exCommitB]]).length
                   existing_markers := (existing_mirrored_shas exRepoNoOrigin).length
                   created := (pendingOf exRepoNoOrigin [[exCommitB]] (some 3)).length },
        exRepoNoOrigin) :=
  preview_reports_would_be_counts exRepoNoOrigin [[exCommitB]] true (some 3)
    (by simp) (by decide)

/-! C8: the missing-origin safety guard. -/

/-- Counterexample to C8 as stated: a mutating run with the bypass flag
    (allow_non_vanity_target) set succeeds and creates a commit although
    the target has no origin remote, so not every mutating run with a
    missing origin fails. -/
theorem missing_origin_bypass_cex :
    syncChainLength (sync exRepoNoOrigin [[exCommitB]] false true none) = some 2 := by
  decide

/-- C8 amended.  For every mutating (non-preview) run without the bypass
    flag, a target repository with no origin remote makes the Safety
    Guard fail with the missing-origin error, aborting the run before any
    commit is created. -/
theorem missing_origin_blocks (repo : ThisRepo) (read_repos : List (List SourceCommit))
    (limit : Option Nat) (hne : read_repos ≠ []) (h : repo.origin = none) :
    sync repo read_repos false false limit =
      Except.error "Missing origin remote in this-repo".data := by
  have hguard : assert_vanity_target_repo repo false =
      Except.error "Missing origin remote in this-repo".data := by
    unfold assert_vanity_target_repo
    rw [if_neg (by simp), h]
  unfold sync
  rw [if_neg (by simpa using hne), if_neg (by simp), hguard]

/-- Witness for the amended C8 at a concrete target without origin. -/
theorem missing_origin_blocks_witness :
    sync exRepoNoOrigin [[exCommitA]] false false none =
      Except.error "Missing origin remote in this-repo".data :=
  missing_origin_blocks exRepoNoOrigin [[exCommitA]] none (by simp) rfl

end Vanity
